import Mathlib

/-!
Verification development for `xiuren.py`, a concurrent crawl-and-download
pipeline for a paginated photo-listing site.

The Python source is shallowly embedded: pure string manipulation becomes
Lean functions on `List Char` / `String`; network effects are represented
by explicit oracles (`net : Nat → Except String Unit` gives the outcome of
each fetch attempt, exceptions becoming `.error` values); the per-call event
sequence (fetch attempts, sleeps) is reified as an explicit trace so that
retry/backoff behaviour is provable.  Paths follow POSIX conventions
(`os.path` on the target platform), so the path separator is `/`.
-/

namespace Xiuren

/-- `BASE_URL` constant from the source (line 18). -/
def BASE_URL : String := "https://meirentu.cc/"

/-! ### Decimal formatting: model of Python `f"{n:03}"` -/

/-- Fuel-driven worker for `toDigitsRev`; the fuel only serves structural
termination and is irrelevant once it exceeds the argument. -/
def toDigitsRevAux : Nat → Nat → List Char
  | 0, _ => []
  | fuel + 1, n =>
    if n < 10 then [Nat.digitChar n]
    else Nat.digitChar (n % 10) :: toDigitsRevAux fuel (n / 10)

/-- Decimal digits of `n`, least-significant first, via repeated `/ 10`,
`% 10` — the standard decimal representation used by Python's `format`. -/
def toDigitsRev (n : Nat) : List Char := toDigitsRevAux (n + 1) n

/-- Decimal digits of `n`, most-significant first. -/
def natToDigits (n : Nat) : List Char := (toDigitsRev n).reverse

/-- Python `f"{n:03}"`: decimal representation of `n`, left-padded with
`'0'` to at least three characters. -/
def pad3 (n : Nat) : List Char :=
  List.replicate (3 - (natToDigits n).length) '0' ++ natToDigits n

/-- Numeric value of a decimal-digit string, most-significant first —
model of Python `int(s)` on a digit string. -/
def digitsVal (l : List Char) : Nat :=
  l.foldl (fun a c => a * 10 + (c.toNat - '0'.toNat)) 0

/-! ### Extension derivation (source lines 107–109)

`ext = os.path.splitext(url)[-1].split("?")[0]` followed by
`if not ext or len(ext) > 5: ext = ".jpg"`. -/

/-- Suffix of `rest` starting at its last `'.'` (inclusive), or `[]` when
`rest` has no dot. -/
def lastDotSuffix (rest : List Char) : List Char :=
  match rest.reverse.dropWhile (fun c => c ≠ '.') with
  | [] => []
  | _ :: _ => '.' :: (rest.reverse.takeWhile (fun c => c ≠ '.')).reverse

/-- Model of `os.path.splitext(p)[-1]` (POSIX): the extension of the last
path component — the suffix starting at the last `'.'` of the part of the
basename that follows its leading dots, or `[]` when no such dot exists. -/
def splitextExt (p : List Char) : List Char :=
  lastDotSuffix
    (((p.reverse.takeWhile (fun c => c ≠ '/')).reverse).dropWhile (fun c => c = '.'))

/-- Model of Python `s.split("?")[0]`: the prefix before the first `'?'`. -/
def beforeQuery (l : List Char) : List Char := l.takeWhile (fun c => c ≠ '?')

/-- Source lines 108–109: `if not ext or len(ext) > 5: ext = ".jpg"`. -/
def extDefault (ext : List Char) : List Char :=
  if ext = [] ∨ ext.length > 5 then ".jpg".data else ext

/-- Source lines 107–109: extension used for the downloaded file —
`os.path.splitext(url)[-1].split("?")[0]` with the `.jpg` fallback. -/
def extOf (url : List Char) : List Char :=
  extDefault (beforeQuery (splitextExt url))

/-- The extension-derivation rule as claim C3 words it: first strip the
query string from the URL, then take the extension of the resulting path
(same `.jpg` fallback).  Stated for refinement comparison with `extOf`. -/
def specExtOf (url : List Char) : List Char :=
  extDefault (splitextExt (beforeQuery url))

/-- Source line 110: the destination file name
`os.path.join(folder, f"{idx+1:03}{ext}")` of the image at 0-based
position `idx`. -/
def downloadFileName (folder : List Char) (idx : Nat) (url : List Char) :
    List Char :=
  folder ++ '/' :: (pad3 (idx + 1) ++ extOf url)

/-! ### Download engine (source lines 106–126)

The network is an oracle `net : Nat → Except String Unit`: `net a` is the
outcome of attempt number `a` (0-based) — `.ok ()` when the streamed GET and
file write succeed, `.error e` when any exception `e` is raised.  The loop
`for attempt in range(retries)` is embedded as `dlGo` with the current
attempt number and the number of remaining iterations; the events it
performs (fetch attempts and `time.sleep(1)` calls) are collected in a
trace. -/

/-- Events performed by `download_image`. -/
inductive Ev where
  | fetch (attempt : Nat)
  | sleep (seconds : Nat)
  deriving DecidableEq, Repr

/-- The retry loop of `download_image` (source lines 114–126).  `attempt`
is the current 0-based attempt number, `remaining` the number of loop
iterations still to run (initially `retries`); Python's
`attempt < retries - 1` test is `remaining > 1` at iteration entry, i.e.
the tail `rem > 0` after peeling one iteration.  Returns the function
result (`none` models falling off the loop and returning Python `None`)
together with the event trace. -/
def dlGo (net : Nat → Except (List Char) Unit) (url : List Char) :
    Nat → Nat → Option (Bool × List Char) × List Ev
  | _, 0 => (none, [])
  | attempt, rem + 1 =>
    match net attempt with
    | .ok _ => (some (true, url), [.fetch attempt])
    | .error e =>
      if rem > 0 then
        ((dlGo net url (attempt + 1) rem).1,
          .fetch attempt :: .sleep 1 :: (dlGo net url (attempt + 1) rem).2)
      else
        (some (false, url ++ " | ".data ++ e), [.fetch attempt])

/-- `download_image(url, folder, idx, referer, retries)` (source lines
106–126), with the filesystem and network abstracted into the oracle:
returns the result tuple (or `none` for Python `None`) and the trace. -/
def download_image (net : Nat → Except (List Char) Unit) (url : List Char)
    (retries : Nat := 3) : Option (Bool × List Char) × List Ev :=
  dlGo net url 0 retries

/-- Number of fetch attempts recorded in a trace. -/
def fetchCount (tr : List Ev) : Nat :=
  (tr.filter (fun e => match e with | .fetch _ => true | _ => false)).length

/-! ### Title sanitisation (source line 130)

`re.sub(r'[\\/:"*?<>|]+', "_", title)`: each maximal run of one or more
characters from the class is replaced by a single `'_'`. -/

/-- The character class `[\\/:"*?<>|]` of the sanitising regex. -/
def badChar (c : Char) : Bool :=
  c = '\\' || c = '/' || c = ':' || c = '"' || c = '*' || c = '?' ||
    c = '<' || c = '>' || c = '|'

/-- Worker for `sanitize`.  The Boolean records whether the previous
character belonged to the class: a class character opens a new match of
`[\\/:"*?<>|]+` (emitting one `'_'`) only when the previous character did
not, since the regex engine consumes a maximal run per match. -/
def sanitizeGo : Bool → List Char → List Char
  | _, [] => []
  | prevBad, c :: rest =>
    if badChar c then
      if prevBad then sanitizeGo true rest
      else '_' :: sanitizeGo true rest
    else c :: sanitizeGo false rest

/-- `re.sub(r'[\\/:"*?<>|]+', "_", ·)` on the character list of the title:
each maximal run of class characters is replaced by a single underscore. -/
def sanitize (l : List Char) : List Char := sanitizeGo false l

/-- Per-character replacement, as claim C8 words the sanitisation: every
occurrence of a class character becomes its own underscore.  Stated for
refinement comparison with `sanitize`. -/
def sanitizeEachSpec (l : List Char) : List Char :=
  l.map (fun c => if badChar c then '_' else c)

/-- Collapse every run of adjacent class characters to its first element
(used to characterise what the regex's `+` quantifier does). -/
def collapseBadRuns : List Char → List Char
  | [] => []
  | [c] => [c]
  | a :: b :: rest =>
    if badChar a && badChar b then collapseBadRuns (b :: rest)
    else a :: collapseBadRuns (b :: rest)

/-! ### URL joining and listing parsing (source lines 43–62)

`urllib.parse.urljoin` is standard-library code; it is modelled here for
the absolute/root-relative/relative cases (no dot-segment normalisation,
which the claims do not depend on). -/

/-- Whether a URL starts with a `scheme:` prefix (letter followed by
letters, digits, `+`, `-`, `.`, then `':'`). -/
def hasScheme (l : List Char) : Bool :=
  let pre := l.takeWhile (fun c => c.isAlpha || c.isDigit || c = '+' ||
    c = '-' || c = '.')
  match pre, l.drop pre.length with
  | p :: _, ':' :: _ => p.isAlpha
  | _, _ => false

/-- Scheme part of an absolute URL (text before the first `':'`). -/
def schemeOf (base : List Char) : List Char :=
  base.takeWhile (fun c => c ≠ ':')

/-- `scheme://authority` part of an absolute URL: everything before the
first `'/'` that follows `"//"`. -/
def schemeAuthority (base : List Char) : List Char :=
  match base.dropWhile (fun c => c ≠ ':') with
  | ':' :: '/' :: '/' :: rest =>
    base.takeWhile (fun c => c ≠ ':') ++ ':' :: '/' :: '/' ::
      rest.takeWhile (fun c => c ≠ '/')
  | _ => base

/-- Base with its last path segment removed (text up to and including the
last `'/'`). -/
def upToLastSlash (base : List Char) : List Char :=
  (base.reverse.dropWhile (fun c => c ≠ '/')).reverse

/-- Model of `urllib.parse.urljoin(base, url)` for the cases exercised
here: empty reference keeps the base; an absolute reference replaces it; a
protocol-relative `//…` reference keeps only the scheme; a root-relative
`/…` reference keeps scheme and authority; anything else resolves against
the base's directory.  Dot-segment normalisation is not modelled. -/
def urljoin (base url : List Char) : List Char :=
  if url = [] then base
  else if hasScheme url then url
  else if url.take 2 = ['/', '/'] then schemeOf base ++ ':' :: url
  else if url.head? = some '/' then schemeAuthority base ++ url
  else upToLastSlash base ++ url

/-- Python `str.strip()` restricted to ASCII whitespace. -/
def pyWhitespace (c : Char) : Bool :=
  c = ' ' || c = '\t' || c = '\n' || c = '\r' || c = '\x0b' || c = '\x0c'

/-- Python `s.strip()`: drop leading and trailing whitespace. -/
def pyStrip (l : List Char) : List Char :=
  ((l.dropWhile pyWhitespace).reverse.dropWhile pyWhitespace).reverse

/-- One listing card as seen by `get_album_list`: the anchor's `href`
attribute (`none` when absent) and the text of the title element
(`none` when `select_one` finds no such element). -/
structure Card where
  href : Option (List Char)
  titleText : Option (List Char)

/-- One listing entry produced by `get_album_list` (source lines 57–60). -/
structure Entry where
  title : List Char
  url : List Char
  deriving DecidableEq

/-- The body of the card loop of `get_album_list` (source lines 53–60):
a card contributes an entry exactly when its `href` is truthy (present and
non-empty) and its title element is present; the entry's title is the
stripped element text and its URL is `urljoin(BASE_URL, href)`. -/
def cardEntry (card : Card) : Option Entry :=
  match card.href, card.titleText with
  | some h, some t =>
    if h = [] then none
    else some ⟨pyStrip t, urljoin BASE_URL.data h⟩
  | _, _ => none

/-- `get_album_list` (source lines 43–62), over the parsed listing cards. -/
def get_album_list (cards : List Card) : List Entry :=
  cards.filterMap cardEntry

/-! ### Page-set resolution (source lines 81–93) -/

/-- Python `url.rstrip("/")`: drop all trailing slashes. -/
def rstripSlash (l : List Char) : List Char :=
  (l.reverse.dropWhile (fun c => c = '/')).reverse

/-- The `page_urls` set built by `get_all_photos` (source lines 82–93)
from the entry URL and the `href` attributes of the parsed `.page a`
anchors: the joined pagination links unioned with the entry's base URL
`item["url"].rstrip("/")`. -/
def pageSet (itemUrl : List Char) (hrefs : List (Option (List Char))) :
    Finset (List Char) :=
  ((hrefs.filterMap id).map (urljoin BASE_URL.data)).toFinset ∪
    {rstripSlash itemUrl}

/-! ### Pagination discovery (source lines 65–68, 153–162) -/

/-- Model of `re.search(r"\d+", s)` followed by `int(m.group())`: the
value of the first maximal digit run in `s`, or `none` when `s` has no
digit. -/
def firstNumber (l : List Char) : Option Nat :=
  let run := (l.dropWhile (fun c => !c.isDigit)).takeWhile (fun c => c.isDigit)
  if run = [] then none else some (digitsVal run)

/-- The numbers `max_page_no` extracts from the pagination link texts
(source line 67). -/
def pageNums (linkTexts : List (List Char)) : List Nat :=
  linkTexts.filterMap (fun t => firstNumber (pyStrip t))

/-- `max_page_no` (source lines 65–68): maximum of the extracted numbers,
defaulting to 1 when none are found. -/
def max_page_no (linkTexts : List (List Char)) : Nat :=
  if (pageNums linkTexts).isEmpty then 1
  else (pageNums linkTexts).foldl Nat.max 0

/-- The listing pages `main` iterates over (source lines 153–162):
`range(start, end+1)` with `end` replaced by the discovered
`max_page_no` of the first listing page when `end <= 0`. -/
def pagesToProcess (start endArg : Int) (firstPageLinkTexts : List (List Char)) :
    List Int :=
  (List.range
    (((if endArg ≤ 0 then (max_page_no firstPageLinkTexts : Int) else endArg)
      + 1 - start).toNat)).map (fun (k : Nat) => start + (k : Int))

/-! ### Failure aggregation (source lines 129–150) -/

/-- The `failed_list` built by `save_photos` (source lines 136–146): the
messages of all download results whose success flag is false. -/
def failedList (results : List (Bool × List Char)) : List (List Char) :=
  (results.filter (fun r => !r.1)).map (·.2)

/-- The `failed.txt` sidecar written by `save_photos` (source lines
147–150): `none` when no download failed (the file is not created),
otherwise the concatenation of one `'\n'`-terminated line per failure
message. -/
def failedFileContent (results : List (Bool × List Char)) :
    Option (List Char) :=
  if (failedList results).isEmpty then none
  else some ((failedList results).foldr (fun line acc => line ++ '\n' :: acc) [])

/-- The per-URL download results `save_photos` collects (source lines
139–142): one `download_image` call per photo URL at the default
`retries = 3`, with the network behaviour of each URL given by the oracle
`net`.  (`download_image` always returns a result pair at the default
retry count; the `getD` default is unreachable.) -/
def save_photos_results (net : List Char → Nat → Except (List Char) Unit)
    (photos : List (List Char)) : List (Bool × List Char) :=
  photos.map (fun u => ((download_image (net u) u).1).getD (true, u))

/-- The `failed.txt` content produced by a whole `save_photos` run
(source lines 129–150). -/
def save_photos_failed_txt (net : List Char → Nat → Except (List Char) Unit)
    (photos : List (List Char)) : Option (List Char) :=
  failedFileContent (save_photos_results net photos)

/-- A character list with no leading and no trailing whitespace. -/
def noEdgeWhitespace (l : List Char) : Prop :=
  (∀ c, l.head? = some c → pyWhitespace c = false) ∧
    (∀ c, l.getLast? = some c → pyWhitespace c = false)

/-- The event trace of a `download_image` call all of whose `retries`
attempts fail: each attempt except the last is followed by a 1-second
sleep. -/
def retryTrace (retries : Nat) : List Ev :=
  ((List.range retries).map (fun i =>
    if i + 1 < retries then [Ev.fetch i, Ev.sleep 1] else [Ev.fetch i])).flatten

end Xiuren

namespace Xiuren

/-! ### Helper lemmas: decimal digits and `pad3` -/

lemma digitChar_isDigit {m : Nat} (h : m < 10) : (Nat.digitChar m).isDigit = true := by
  interval_cases m <;> decide

lemma digitChar_val {m : Nat} (h : m < 10) :
    (Nat.digitChar m).toNat - '0'.toNat = m := by
  interval_cases m <;> decide

lemma mem_toDigitsRevAux_isDigit :
    ∀ fuel n c, c ∈ toDigitsRevAux fuel n → c.isDigit = true := by
  intro fuel
  induction fuel with
  | zero => intro n c h; simp [toDigitsRevAux] at h
  | succ fuel ih =>
    intro n c h
    simp only [toDigitsRevAux] at h
    split at h
    · simp at h
      subst h
      exact digitChar_isDigit (by omega)
    · rcases List.mem_cons.mp h with h | h
      · subst h
        exact digitChar_isDigit (Nat.mod_lt _ (by omega))
      · exact ih _ _ h

lemma mem_pad3_isDigit {n : Nat} {c : Char} (h : c ∈ pad3 n) : c.isDigit = true := by
  rcases List.mem_append.mp h with h | h
  · rw [List.eq_of_mem_replicate h]; decide
  · exact mem_toDigitsRevAux_isDigit _ _ _ (List.mem_reverse.mp h)

lemma foldr_toDigitsRevAux :
    ∀ fuel n, n < fuel →
      (toDigitsRevAux fuel n).foldr (fun c acc => acc * 10 + (c.toNat - '0'.toNat)) 0 = n := by
  intro fuel
  induction fuel with
  | zero => intro n h; omega
  | succ fuel ih =>
    intro n h
    simp only [toDigitsRevAux]
    split
    · next h10 =>
      have hv := digitChar_val h10
      simp only [List.foldr_cons, List.foldr_nil]
      omega
    · next h10 =>
      have hlt : n / 10 < fuel :=
        lt_of_lt_of_le (Nat.div_lt_self (by omega) (by omega)) (by omega)
      simp only [List.foldr_cons, ih _ hlt, digitChar_val (Nat.mod_lt _ (by omega))]
      omega

lemma digitsVal_natToDigits (n : Nat) : digitsVal (natToDigits n) = n := by
  unfold digitsVal natToDigits toDigitsRev
  rw [List.foldl_reverse]
  exact foldr_toDigitsRevAux _ _ (Nat.lt_succ_self n)

lemma digitsVal_pad3 (n : Nat) : digitsVal (pad3 n) = n := by
  unfold pad3
  have hz : ∀ k, List.foldl (fun a c => a * 10 + (c.toNat - '0'.toNat)) 0
      (List.replicate k '0') = 0 := by
    intro k
    induction k with
    | zero => rfl
    | succ k ih => simpa [List.replicate_succ] using ih
  unfold digitsVal
  rw [List.foldl_append, hz]
  exact digitsVal_natToDigits n

lemma pad3_injective {m n : Nat} (h : pad3 m = pad3 n) : m = n := by
  have := congrArg digitsVal h
  rwa [digitsVal_pad3, digitsVal_pad3] at this

/-! ### Helper lemmas: extensions -/

lemma takeWhile_append_all {p : Char → Bool} :
    ∀ (l₁ l₂ : List Char), (∀ c ∈ l₁, p c = true) →
      (∀ c, l₂.head? = some c → p c = false) →
      (l₁ ++ l₂).takeWhile p = l₁ := by
  intro l₁
  induction l₁ with
  | nil =>
    intro l₂ _ h₂
    cases l₂ with
    | nil => rfl
    | cons c t => simp [List.takeWhile_cons, h₂ c rfl]
  | cons a l₁ ih =>
    intro l₂ h₁ h₂
    have hpa : p a = true := h₁ a (List.mem_cons_self a l₁)
    simp only [List.cons_append, List.takeWhile_cons, hpa, if_pos]
    rw [ih l₂ (fun c hc => h₁ c (List.mem_cons_of_mem _ hc)) h₂]

lemma lastDotSuffix_shape (rest : List Char) :
    lastDotSuffix rest = [] ∨ ∃ t, lastDotSuffix rest = '.' :: t := by
  unfold lastDotSuffix
  cases rest.reverse.dropWhile (fun c => c ≠ '.') with
  | nil => exact Or.inl rfl
  | cons a t => exact Or.inr ⟨_, rfl⟩

lemma splitextExt_shape (p : List Char) :
    splitextExt p = [] ∨ ∃ t, splitextExt p = '.' :: t :=
  lastDotSuffix_shape _

lemma extDefault_shape (ext : List Char)
    (h : ext = [] ∨ ∃ t, ext = '.' :: t) :
    ∃ t, extDefault ext = '.' :: t := by
  unfold extDefault
  split
  · exact ⟨"jpg".data, rfl⟩
  · next hcond =>
    rcases h with h | ⟨t, h⟩
    · exact absurd (Or.inl h) hcond
    · exact ⟨t, h⟩

lemma extOf_shape (u : List Char) : ∃ t, extOf u = '.' :: t := by
  unfold extOf
  apply extDefault_shape
  rcases splitextExt_shape u with h | ⟨t, h⟩ <;> rw [h]
  · exact Or.inl rfl
  · exact Or.inr ⟨_, rfl⟩

lemma extOf_head_not_digit (u : List Char) :
    ∀ c, (extOf u).head? = some c → c.isDigit = false := by
  intro c hc
  rcases extOf_shape u with ⟨t, ht⟩
  rw [ht] at hc
  simp at hc
  subst hc
  decide

lemma pad3_ext_injective {m n : Nat} {u v : List Char}
    (h : pad3 m ++ extOf u = pad3 n ++ extOf v) : m = n := by
  have hm := takeWhile_append_all (pad3 m) (extOf u)
    (fun c hc => mem_pad3_isDigit hc) (extOf_head_not_digit u)
  have hn := takeWhile_append_all (pad3 n) (extOf v)
    (fun c hc => mem_pad3_isDigit hc) (extOf_head_not_digit v)
  have := congrArg (List.takeWhile Char.isDigit) h
  rw [hm, hn] at this
  exact pad3_injective this

/-! ### Helper lemmas: the retry loop -/

lemma fetchCount_cons_fetch (a : Nat) (tr : List Ev) :
    fetchCount (.fetch a :: tr) = fetchCount tr + 1 := by
  simp [fetchCount, List.filter_cons]

lemma fetchCount_cons_sleep (s : Nat) (tr : List Ev) :
    fetchCount (.sleep s :: tr) = fetchCount tr := by
  simp [fetchCount, List.filter_cons]

lemma dlGo_fetchCount (net : Nat → Except (List Char) Unit) (url : List Char) :
    ∀ rem a, fetchCount (dlGo net url a rem).2 ≤ rem := by
  intro rem
  induction rem with
  | zero => intro a; simp [dlGo, fetchCount]
  | succ rem ih =>
    intro a
    simp only [dlGo]
    cases net a with
    | ok _ =>
      dsimp only
      simp [fetchCount, List.filter_cons]
    | error e =>
      dsimp only
      by_cases hrem : rem > 0
      · rw [if_pos hrem]
        have := ih (a + 1)
        simp only [fetchCount_cons_fetch, fetchCount_cons_sleep]
        omega
      · rw [if_neg hrem]
        simp [fetchCount, List.filter_cons]

lemma dlGo_result_shape (net : Nat → Except (List Char) Unit) (url : List Char) :
    ∀ rem a, 0 < rem →
      ∃ b msg, (dlGo net url a rem).1 = some (b, msg) ∧
        (b = true → msg = url) ∧
        (b = false → ∃ e, msg = url ++ " | ".data ++ e) := by
  intro rem
  induction rem with
  | zero => intro a h; omega
  | succ rem ih =>
    intro a _
    simp only [dlGo]
    cases net a with
    | ok _ =>
      exact ⟨true, url, rfl, fun _ => rfl, fun h => by simp at h⟩
    | error e =>
      dsimp only
      by_cases hrem : rem > 0
      · rw [if_pos hrem]
        obtain ⟨b, msg, h1, h2, h3⟩ := ih (a + 1) hrem
        exact ⟨b, msg, h1, h2, h3⟩
      · rw [if_neg hrem]
        exact ⟨false, url ++ " | ".data ++ e, rfl, fun h => by simp at h,
          fun _ => ⟨e, rfl⟩⟩

/-- `retryTrace` with the attempt numbers shifted by `a`. -/
def retryTraceFrom (a retries : Nat) : List Ev :=
  ((List.range retries).map (fun i =>
    if i + 1 < retries then [Ev.fetch (a + i), Ev.sleep 1]
    else [Ev.fetch (a + i)])).flatten

lemma retryTraceFrom_zero (r : Nat) : retryTraceFrom 0 r = retryTrace r := by
  unfold retryTraceFrom retryTrace
  congr 1
  apply List.map_congr_left
  intro i _
  simp

lemma retryTraceFrom_one (a : Nat) : retryTraceFrom a 1 = [Ev.fetch a] := by
  simp [retryTraceFrom, List.range_succ]

lemma retryTraceFrom_succ (a r : Nat) (h : 0 < r) :
    retryTraceFrom a (r + 1) = Ev.fetch a :: Ev.sleep 1 :: retryTraceFrom (a + 1) r := by
  unfold retryTraceFrom
  rw [List.range_succ_eq_map]
  have hm : List.map ((fun i =>
        if i + 1 < r + 1 then [Ev.fetch (a + i), Ev.sleep 1]
        else [Ev.fetch (a + i)]) ∘ Nat.succ) (List.range r)
      = List.map (fun i =>
        if i + 1 < r then [Ev.fetch (a + 1 + i), Ev.sleep 1]
        else [Ev.fetch (a + 1 + i)]) (List.range r) := by
    apply List.map_congr_left
    intro i _
    simp only [Function.comp_apply]
    by_cases hc : i + 1 < r
    · rw [if_pos (show i.succ + 1 < r + 1 by omega), if_pos hc,
        show a + i.succ = a + 1 + i by omega]
    · rw [if_neg (show ¬(i.succ + 1 < r + 1) by omega), if_neg hc,
        show a + i.succ = a + 1 + i by omega]
  simp only [List.map_cons, List.map_map, List.flatten_cons, hm]
  rw [if_pos (show 0 + 1 < r + 1 by omega)]
  simp

lemma dlGo_all_fail (net : Nat → Except (List Char) Unit) (url : List Char)
    (err : Nat → List Char) :
    ∀ rem a, (∀ i, i ≤ rem → net (a + i) = .error (err (a + i))) →
      dlGo net url a (rem + 1)
        = (some (false, url ++ " | ".data ++ err (a + rem)), retryTraceFrom a (rem + 1)) := by
  intro rem
  induction rem with
  | zero =>
    intro a hfail
    have h0 := hfail 0 (Nat.le_refl 0)
    simp only [Nat.add_zero] at h0
    simp [dlGo, h0, retryTraceFrom_one]
  | succ rem ih =>
    intro a hfail
    have h0 := hfail 0 (Nat.zero_le _)
    simp only [Nat.add_zero] at h0
    have hrec := ih (a + 1) (fun i hi => by
      have := hfail (i + 1) (by omega)
      rwa [show a + (i + 1) = a + 1 + i by omega] at this)
    have hstep : dlGo net url a (rem + 1 + 1)
        = ((dlGo net url (a + 1) (rem + 1)).1,
           Ev.fetch a :: Ev.sleep 1 :: (dlGo net url (a + 1) (rem + 1)).2) := by
      simp [dlGo, h0]
    rw [hstep, hrec, retryTraceFrom_succ a (rem + 1) (Nat.succ_pos rem),
      show a + 1 + rem = a + (rem + 1) by omega]

/-! ### Claim theorems -/

/-- **C1**: the destination filename of the image at 0-based position `i`
in the submitted sequence is the 3-digit zero-padded `i+1` followed by the
URL-derived extension, joined to the entry folder.  It is a pure function
of `i` and the URL alone (`idx` is fixed by `enumerate` at submission time,
before any concurrent execution, so the name is deterministic across
re-runs and independent of completion order), and distinct positions always
produce distinct filenames. -/
theorem download_filename_index_deterministic_unique
    (folder u v : List Char) (i j : Nat) :
    downloadFileName folder i u = folder ++ '/' :: (pad3 (i + 1) ++ extOf u) ∧
    (i ≠ j → downloadFileName folder i u ≠ downloadFileName folder j v) := by
  refine ⟨rfl, fun hij heq => ?_⟩
  unfold downloadFileName at heq
  have h1 := List.append_cancel_left heq
  have h2 : pad3 (i + 1) ++ extOf u = pad3 (j + 1) ++ extOf v :=
    ((List.cons.injEq _ _ _ _).mp h1).2
  have h3 := pad3_ext_injective h2
  exact hij (by omega)

/-- Witness for C1 at positions 0 and 1 of a two-image sequence. -/
theorem download_filename_index_deterministic_unique_witness :
    downloadFileName "meirentu_downloads/t".data 0 "https://x/a.jpg".data
      ≠ downloadFileName "meirentu_downloads/t".data 1 "https://x/b.png".data :=
  (download_filename_index_deterministic_unique
    "meirentu_downloads/t".data "https://x/a.jpg".data "https://x/b.png".data
    0 1).2 (by decide)

/-- **C2**: `download_image` performs at most `retries` fetch attempts;
when every attempt fails, consecutive failed attempts are separated by
exactly one fixed 1-second sleep (no sleep after the last), and the
reported failure reason is the exception of the final attempt only. -/
theorem download_image_retry_backoff_last_error
    (net : Nat → Except (List Char) Unit) (url : List Char) (retries : Nat)
    (err : Nat → List Char) :
    fetchCount (download_image net url retries).2 ≤ retries ∧
    ((∀ i, i < retries → net i = .error (err i)) → 0 < retries →
      download_image net url retries
        = (some (false, url ++ " | ".data ++ err (retries - 1)),
           retryTrace retries)) := by
  constructor
  · exact dlGo_fetchCount net url retries 0
  · intro hfail hpos
    obtain ⟨rem, rfl⟩ : ∃ rem, retries = rem + 1 := ⟨retries - 1, by omega⟩
    have hall := dlGo_all_fail net url err rem 0 (fun i hi => by
      have := hfail i (by omega)
      simpa using this)
    unfold download_image
    rw [hall, retryTraceFrom_zero]
    simp

/-- Witness for C2: three attempts that all fail with `"e"`. -/
theorem download_image_retry_backoff_last_error_witness :
    fetchCount (download_image (fun _ => Except.error "e".data) "u".data 3).2 ≤ 3 ∧
    download_image (fun _ => Except.error "e".data) "u".data 3
      = (some (false, "u | e".data),
         [.fetch 0, .sleep 1, .fetch 1, .sleep 1, .fetch 2]) := by
  have h := download_image_retry_backoff_last_error
    (fun _ => Except.error "e".data) "u".data 3 (fun _ => "e".data)
  refine ⟨h.1, ?_⟩
  rw [h.2 (fun i _ => rfl) (by omega)]
  decide

/-- **C5**: whenever at least one attempt is allowed (as in every actual
call, which uses the default `retries = 3`), `download_image` returns a
result — a success pair carrying the URL, or a failure pair carrying the
URL and a reason — rather than raising: in the embedding every exception
the oracle produces is consumed by the `except` branch, and the caller
aggregates the returned pairs. -/
theorem download_image_result_carries_url
    (net : Nat → Except (List Char) Unit) (url : List Char) (retries : Nat)
    (h : 1 ≤ retries) :
    ∃ b msg, (download_image net url retries).1 = some (b, msg) ∧
      (b = true → msg = url) ∧
      (b = false → ∃ reason, msg = url ++ " | ".data ++ reason) :=
  dlGo_result_shape net url retries 0 h

/-- Witness for C5 at the default retry count. -/
theorem download_image_result_carries_url_witness :
    ∃ b msg, (download_image (fun _ => Except.ok ()) "u".data 3).1 = some (b, msg) ∧
      (b = true → msg = "u".data) ∧
      (b = false → ∃ reason, msg = "u".data ++ " | ".data ++ reason) :=
  download_image_result_carries_url (fun _ => Except.ok ()) "u".data 3 (by omega)

/-- **C9**: with `retries = 0` the loop body never runs and
`download_image` returns Python `None` (no result pair, empty trace); the
result-tuple guarantee holds exactly under the precondition
`retries ≥ 1`. -/
theorem download_image_zero_retries_returns_none
    (net : Nat → Except (List Char) Unit) (url : List Char) :
    download_image net url 0 = (none, []) ∧
    ∀ retries, 1 ≤ retries →
      ((download_image net url retries).1).isSome = true := by
  refine ⟨rfl, fun retries h => ?_⟩
  obtain ⟨b, msg, h1, -, -⟩ := dlGo_result_shape net url retries 0 h
  simp [download_image, h1]

/-- Witness for C9: zero retries yield `None`, one retry yields a result. -/
theorem download_image_zero_retries_returns_none_witness :
    download_image (fun _ => Except.error "e".data) "u".data 0 = (none, []) ∧
    ((download_image (fun _ => Except.error "e".data) "u".data 1).1).isSome
      = true := by
  have h := download_image_zero_retries_returns_none
    (fun _ => Except.error "e".data) "u".data
  exact ⟨h.1, h.2 1 (by omega)⟩

lemma sanitizeEachSpec_cons (a : Char) (l : List Char) :
    sanitizeEachSpec (a :: l)
      = (if badChar a then '_' else a) :: sanitizeEachSpec l := rfl

/-- **C8** (amended): the folder name is the title in which each *maximal
run* of one or more characters from `\ / : * ? " < > |` is replaced by a
single underscore, all other characters unchanged — equivalently,
per-character replacement applied after collapsing each run of adjacent
class characters to one. -/
theorem sanitize_collapses_runs (l : List Char) :
    sanitize l = sanitizeEachSpec (collapseBadRuns l) := by
  unfold sanitize
  induction l with
  | nil => rfl
  | cons a tail ih =>
    cases tail with
    | nil =>
      by_cases ha : badChar a = true <;>
        simp [sanitizeGo, collapseBadRuns, sanitizeEachSpec, ha]
    | cons b rest =>
      by_cases ha : badChar a = true
      · by_cases hb : badChar b = true
        · rw [show collapseBadRuns (a :: b :: rest) = collapseBadRuns (b :: rest) by
            simp [collapseBadRuns, ha, hb]]
          rw [← ih]
          simp [sanitizeGo, ha, hb]
        · rw [show collapseBadRuns (a :: b :: rest) = a :: collapseBadRuns (b :: rest) by
            simp [collapseBadRuns, hb]]
          rw [sanitizeEachSpec_cons, if_pos ha, ← ih]
          simp [sanitizeGo, ha, hb]
      · rw [show collapseBadRuns (a :: b :: rest) = a :: collapseBadRuns (b :: rest) by
          simp [collapseBadRuns, ha]]
        rw [sanitizeEachSpec_cons, if_neg ha, ← ih]
        simp [sanitizeGo, ha]

/-- **C8** (counterexample to the claim as stated): on the title `a\\b`
(two adjacent backslashes) the code produces `a_b` — the whole run becomes
one underscore — while per-occurrence replacement would give `a__b`. -/
theorem sanitize_run_counterexample :
    sanitize "a\\\\b".data = "a_b".data ∧
    sanitizeEachSpec "a\\\\b".data = "a__b".data ∧
    sanitize "a\\\\b".data ≠ sanitizeEachSpec "a\\\\b".data := by
  decide

/-- **C3** (counterexample to the claim as stated): the code applies
`splitext` to the full URL and only afterwards truncates the extension at
`'?'`, so on a URL whose query string contains a dot the derived extension
comes from the query, not from the path with the query stripped:
`https://x/p.png?v=1.2` yields `.2`, while the claim's reading yields
`.png`. -/
theorem ext_query_dot_counterexample :
    extOf "https://x/p.png?v=1.2".data = ".2".data ∧
    specExtOf "https://x/p.png?v=1.2".data = ".png".data ∧
    extOf "https://x/p.png?v=1.2".data
      ≠ specExtOf "https://x/p.png?v=1.2".data := by
  decide

/-- **C3** (amended): the extension is `splitext` of the full URL (query
included) truncated at the first `'?'`; when that is absent the extension
defaults to `.jpg`; otherwise it starts with a dot and is kept verbatim —
case preserved — when at most 4 characters follow the dot, and defaults to
`.jpg` when more than 4 do. -/
theorem extOf_amended_rule (url : List Char) :
    (beforeQuery (splitextExt url) = [] → extOf url = ".jpg".data) ∧
    (∀ t, beforeQuery (splitextExt url) = '.' :: t →
      (4 < t.length → extOf url = ".jpg".data) ∧
      (t.length ≤ 4 → extOf url = '.' :: t)) := by
  constructor
  · intro h
    unfold extOf
    rw [h]
    rfl
  · intro t ht
    constructor
    · intro hlen
      unfold extOf
      rw [ht]
      unfold extDefault
      rw [if_pos (Or.inr (by simp; omega))]
    · intro hlen
      unfold extOf
      rw [ht]
      unfold extDefault
      rw [if_neg]
      rintro (h | h)
      · exact List.cons_ne_nil _ _ h
      · simp at h
        omega

/-- Witness for the amended C3: `.../photo.PNG?x=1` keeps `.PNG` with its
case preserved. -/
theorem extOf_amended_rule_witness :
    extOf "https://x/photo.PNG?x=1".data = '.' :: "PNG".data :=
  ((extOf_amended_rule "https://x/photo.PNG?x=1".data).2 "PNG".data
    (by decide)).2 (by decide)

/-- **C4**: the resolved page set of an entry always contains the entry's
base URL — the entry URL as the resolver fetches it, i.e. with trailing
slashes stripped (source line 82) — and when the base page has no
pagination links the set is exactly that singleton. -/
theorem pageSet_contains_base (itemUrl : List Char)
    (hrefs : List (Option (List Char))) :
    rstripSlash itemUrl ∈ pageSet itemUrl hrefs ∧
    pageSet itemUrl [] = {rstripSlash itemUrl} := by
  constructor
  · exact Finset.mem_union_right _ (Finset.mem_singleton_self _)
  · unfold pageSet
    simp

/-! ### Helper lemmas: folded maxima, stripped strings, URL joining -/

lemma le_foldl_max : ∀ (l : List Nat) (a : Nat), a ≤ l.foldl Nat.max a := by
  intro l
  induction l with
  | nil => intro a; exact Nat.le_refl a
  | cons x xs ih =>
    intro a
    exact le_trans (Nat.le_max_left a x) (ih (Nat.max a x))

lemma mem_le_foldl_max : ∀ (l : List Nat) (a : Nat), ∀ n ∈ l, n ≤ l.foldl Nat.max a := by
  intro l
  induction l with
  | nil => intro a n hn; simp at hn
  | cons x xs ih =>
    intro a n hn
    rcases List.mem_cons.mp hn with rfl | hn
    · exact le_trans (Nat.le_max_right a n) (le_foldl_max xs (Nat.max a n))
    · exact ih (Nat.max a x) n hn

lemma foldl_max_mem : ∀ (l : List Nat) (a : Nat),
    l.foldl Nat.max a = a ∨ l.foldl Nat.max a ∈ l := by
  intro l
  induction l with
  | nil => intro a; exact Or.inl rfl
  | cons x xs ih =>
    intro a
    rcases ih (Nat.max a x) with h | h
    · rcases Nat.le_total a x with hax | hax
      · refine Or.inr ?_
        rw [List.foldl_cons, h]
        show Max.max a x ∈ x :: xs
        rw [max_eq_right hax]
        exact List.mem_cons_self _ _
      · refine Or.inl ?_
        rw [List.foldl_cons, h]
        show Max.max a x = a
        rw [max_eq_left hax]
    · exact Or.inr (List.mem_cons_of_mem _ h)

lemma head?_dropWhile_false {p : Char → Bool} :
    ∀ (l : List Char) (c : Char), (l.dropWhile p).head? = some c → p c = false := by
  intro l
  induction l with
  | nil => intro c h; simp at h
  | cons a t ih =>
    intro c h
    rw [List.dropWhile_cons] at h
    by_cases hp : p a
    · rw [if_pos hp] at h
      exact ih c h
    · rw [if_neg hp] at h
      simp at h
      rw [← h]
      simpa using hp

lemma getLast?_dropWhile {p : Char → Bool} (l : List Char)
    (h : l.dropWhile p ≠ []) : (l.dropWhile p).getLast? = l.getLast? := by
  obtain ⟨t, ht⟩ := List.dropWhile_suffix (l := l) p
  conv_rhs => rw [← ht]
  rw [List.getLast?_append]
  cases hd : (l.dropWhile p).getLast? with
  | none => exact absurd (List.getLast?_eq_none_iff.mp hd) h
  | some c => rfl

lemma noEdgeWhitespace_pyStrip (t : List Char) : noEdgeWhitespace (pyStrip t) := by
  unfold pyStrip noEdgeWhitespace
  constructor
  · intro c hc
    rw [List.head?_reverse] at hc
    have hne : (t.dropWhile pyWhitespace).reverse.dropWhile pyWhitespace ≠ [] := by
      intro h0
      rw [h0] at hc
      simp at hc
    rw [getLast?_dropWhile _ hne, List.getLast?_reverse] at hc
    exact head?_dropWhile_false t c hc
  · intro c hc
    rw [List.getLast?_reverse] at hc
    exact head?_dropWhile_false _ c hc

lemma urljoin_ne_nil (base url : List Char) (h : url ≠ []) :
    urljoin base url ≠ [] := by
  unfold urljoin
  split_ifs with h1 h2 h3 h4
  · exact absurd h1 h
  · exact h
  · simp
  · intro hc
    rw [List.append_eq_nil] at hc
    exact h hc.2
  · intro hc
    rw [List.append_eq_nil] at hc
    exact h hc.2

/-- **C6**: when the end page is requested as "discover" (`end <= 0`), the
pages processed are exactly `start` through the discovered maximum
inclusive, where the maximum is the largest pagination number parsed from
the first listing page, defaulting to 1 when none are found. -/
theorem discover_end_pages_range (start endArg : Int)
    (texts : List (List Char)) (hend : endArg ≤ 0) :
    (∀ p : Int, p ∈ pagesToProcess start endArg texts
      ↔ start ≤ p ∧ p ≤ (max_page_no texts : Int)) ∧
    (pageNums texts = [] → max_page_no texts = 1) ∧
    (∀ n ∈ pageNums texts, n ≤ max_page_no texts) ∧
    (pageNums texts ≠ [] → max_page_no texts ∈ pageNums texts) := by
  refine ⟨?_, ?_, ?_, ?_⟩
  · intro p
    unfold pagesToProcess
    rw [if_pos hend]
    constructor
    · intro hp
      obtain ⟨k, hk, hkeq⟩ := List.mem_map.mp hp
      rw [List.mem_range] at hk
      omega
    · intro hp
      apply List.mem_map.mpr
      refine ⟨(p - start).toNat, ?_, ?_⟩
      · rw [List.mem_range]
        omega
      · omega
  · intro h
    simp [max_page_no, h]
  · intro n hn
    unfold max_page_no
    rw [if_neg (by simp [List.isEmpty_iff]; intro h0; rw [h0] at hn; simp at hn)]
    exact mem_le_foldl_max _ 0 n hn
  · intro h
    unfold max_page_no
    rw [if_neg (by simpa [List.isEmpty_iff] using h)]
    rcases foldl_max_mem (pageNums texts) 0 with h0 | hm
    · obtain ⟨x, xs, hx⟩ := List.exists_cons_of_ne_nil h
      have hxle : x ≤ (pageNums texts).foldl Nat.max 0 :=
        mem_le_foldl_max _ 0 x (by rw [hx]; exact List.mem_cons_self _ _)
      rw [h0] at hxle
      rw [h0, hx, Nat.le_zero.mp hxle]
      exact List.mem_cons_self _ _
    · exact hm

/-- Witness for C6: a pagination widget reporting max page 7 with
`end` requested as discover makes page 7 part of the processed range. -/
theorem discover_end_pages_range_witness :
    (7 : Int) ∈ pagesToProcess 1 0 ["7".data] :=
  ((discover_end_pages_range 1 0 ["7".data] (by decide)).1 7).mpr (by decide)

lemma count_newline_foldr :
    ∀ ms : List (List Char), (∀ m ∈ ms, '\n' ∉ m) →
      ((ms.foldr (fun line acc => line ++ '\n' :: acc) []).count '\n') = ms.length := by
  intro ms
  induction ms with
  | nil => intro _; rfl
  | cons m ms ih =>
    intro hnm
    simp only [List.foldr_cons, List.length_cons, List.count_append, List.count_cons_self]
    rw [ih (fun x hx => hnm x (List.mem_cons_of_mem _ hx))]
    have : m.count '\n' = 0 :=
      List.count_eq_zero.mpr (hnm m (List.mem_cons_self _ _))
    omega

/-- **C7**: for one entry, `failed.txt` is written iff at least one
download returned a failure (zero failures produce no file), and its
content is exactly one `'\n'`-terminated line per failure, each line being
the failure message `url | reason` of an actual photo URL of the entry. -/
theorem failed_txt_iff_failures
    (net : List Char → Nat → Except (List Char) Unit)
    (photos : List (List Char)) :
    (save_photos_failed_txt net photos = none
      ↔ failedList (save_photos_results net photos) = []) ∧
    (∀ s, save_photos_failed_txt net photos = some s →
      s = (failedList (save_photos_results net photos)).foldr
            (fun line acc => line ++ '\n' :: acc) [] ∧
      ((∀ m ∈ failedList (save_photos_results net photos), '\n' ∉ m) →
        s.count '\n' = (failedList (save_photos_results net photos)).length)) ∧
    (∀ m ∈ failedList (save_photos_results net photos),
      ∃ u ∈ photos, ∃ reason, m = u ++ " | ".data ++ reason) := by
  refine ⟨?_, ?_, ?_⟩
  · unfold save_photos_failed_txt failedFileContent
    by_cases h : (failedList (save_photos_results net photos)).isEmpty
    · rw [if_pos h]
      simp [List.isEmpty_iff.mp h]
    · rw [if_neg h]
      simp only [List.isEmpty_iff] at h
      simp [h]
  · intro s hs
    unfold save_photos_failed_txt failedFileContent at hs
    by_cases h : (failedList (save_photos_results net photos)).isEmpty
    · rw [if_pos h] at hs
      exact absurd hs (by simp)
    · rw [if_neg h] at hs
      refine ⟨(Option.some.inj hs).symm, fun hno => ?_⟩
      rw [(Option.some.inj hs).symm]
      exact count_newline_foldr _ hno
  · intro m hm
    unfold failedList save_photos_results at hm
    obtain ⟨r, hrf, hr2⟩ := List.mem_map.mp hm
    have hrmem := (List.mem_filter.mp hrf).1
    have hrfalse : r.1 = false := by
      have := (List.mem_filter.mp hrf).2
      simpa using this
    obtain ⟨u, hu, hru⟩ := List.mem_map.mp hrmem
    obtain ⟨b, msg, h1, h2, h3⟩ := dlGo_result_shape (net u) u 3 0 (by omega)
    have hr : r = (b, msg) := by
      rw [← hru]
      show ((download_image (net u) u).1).getD (true, u) = (b, msg)
      unfold download_image
      rw [h1]
      rfl
    have hb : b = false := by
      rw [hr] at hrfalse
      simpa using hrfalse
    obtain ⟨reason, hreason⟩ := h3 hb
    refine ⟨u, hu, reason, ?_⟩
    rw [← hr2, hr]
    simpa using hreason

/-- Witness for C7: a single photo whose three attempts all fail with
`"e"` produces the single line `a | e`. -/
theorem failed_txt_iff_failures_witness :
    "a | e\n".data
      = (failedList (save_photos_results
          (fun _ _ => Except.error "e".data) ["a".data])).foldr
          (fun line acc => line ++ '\n' :: acc) [] ∧
    ("a | e\n".data).count '\n'
      = (failedList (save_photos_results
          (fun _ _ => Except.error "e".data) ["a".data])).length := by
  have h := (failed_txt_iff_failures
    (fun _ _ => Except.error "e".data) ["a".data]).2.1 "a | e\n".data (by decide)
  exact ⟨h.1, h.2 (by decide)⟩

/-- **C10**: every entry `get_album_list` returns comes from a card with a
present, non-empty `href` and a present title element; its URL is the
`href` absolutised against the base URL and in particular non-empty, and
its title is the whitespace-stripped element text (hence has no leading or
trailing whitespace); a card missing its `href` or its title element is
silently skipped and contributes no entry. -/
theorem get_album_list_filter_invariant (cards : List Card) :
    (∀ e ∈ get_album_list cards, e.url ≠ [] ∧ noEdgeWhitespace e.title ∧
      ∃ c ∈ cards, ∃ h t, c.href = some h ∧ c.titleText = some t ∧ h ≠ [] ∧
        e.title = pyStrip t ∧ e.url = urljoin BASE_URL.data h) ∧
    (∀ (c : Card) (cs₁ cs₂ : List Card),
      c.href = none ∨ c.titleText = none →
      get_album_list (cs₁ ++ c :: cs₂) = get_album_list (cs₁ ++ cs₂)) := by
  constructor
  · intro e he
    obtain ⟨c, hc, hce⟩ := List.mem_filterMap.mp he
    unfold cardEntry at hce
    cases hhref : c.href with
    | none =>
      rw [hhref] at hce
      cases c.titleText <;> simp at hce
    | some h =>
      cases htt : c.titleText with
      | none =>
        rw [hhref, htt] at hce
        simp at hce
      | some t =>
        rw [hhref, htt] at hce
        dsimp only at hce
        by_cases hh : h = []
        · rw [if_pos hh] at hce
          simp at hce
        · rw [if_neg hh] at hce
          rw [← Option.some.inj hce]
          exact ⟨urljoin_ne_nil _ _ hh, noEdgeWhitespace_pyStrip t,
            c, hc, h, t, hhref, htt, hh, rfl, rfl⟩
  · intro c cs₁ cs₂ hmiss
    unfold get_album_list
    rw [List.filterMap_append, List.filterMap_append]
    have hnone : cardEntry c = none := by
      unfold cardEntry
      rcases hmiss with h | h
      · rw [h]
      · rw [h]
        cases c.href <;> rfl
    rw [List.filterMap_cons_none hnone]

/-- Witness for C10: a card with no `href` contributes no entry. -/
theorem get_album_list_filter_invariant_witness :
    get_album_list
      [⟨none, some "z".data⟩, ⟨some "a/1.html".data, some " T ".data⟩]
      = get_album_list [⟨some "a/1.html".data, some " T ".data⟩] :=
  (get_album_list_filter_invariant
      [⟨none, some "z".data⟩, ⟨some "a/1.html".data, some " T ".data⟩]).2
    ⟨none, some "z".data⟩ [] [⟨some "a/1.html".data, some " T ".data⟩]
    (Or.inl rfl)

end Xiuren
